import Mathlib

/-!
Shallow embedding of `scripts/sort_by_vertical_extremes.py`, the rank-aggregation
word-list sorter: per-font measurement results are ranked in two stable-sorted
passes (highest extreme descending, lowest extreme ascending), ranks are folded
into a word-priority mapping by taking minima, and the word list is rewritten as
the priority-sorted words followed by the remaining words in their original order.

Python dictionaries are modelled as insertion-ordered association lists
(`PMap`), Python's stable `sorted` as `List.insertionSort` (also a stable sort),
and the fallible steps of `main` (the zero-font assertion and `del` on a missing
key) as an `Except` computation.
-/

namespace FontHeight

/-- One measurement result for one word in one font: the word together with the
signed vertical offsets of its highest and lowest glyph extreme
(the `we.word`, `we.highest`, `we.lowest` fields used by the script). -/
structure WordExtreme where
  word : String
  highest : Int
  lowest : Int
deriving DecidableEq, Repr

/-- The `word_priorities` dictionary: an insertion-ordered association list from
words to priorities, mirroring a Python `dict[str, int]`. -/
abbrev PMap := List (String × Nat)

/-- `word_priorities.get(w)`: first value stored under key `w`, if any. -/
def pmapGet (m : PMap) (w : String) : Option Nat :=
  match m with
  | [] => none
  | (w', v) :: rest => if w' = w then some v else pmapGet rest w

/-- `word_priorities[w] = v`: replace the value in place if the key is present
(keeping its position, as a Python dict does), otherwise append the new entry. -/
def pmapSet (m : PMap) (w : String) (v : Nat) : PMap :=
  match m with
  | [] => [(w, v)]
  | (w', v') :: rest => if w' = w then (w, v) :: rest else (w', v') :: pmapSet rest w v

/-- The loop body at lines 76–81 / 87–92 of the script: store `rank` for `w` if
`w` is new, otherwise store `min(existing, rank)`. -/
def updateMin (m : PMap) (w : String) (rank : Nat) : PMap :=
  match pmapGet m w with
  | none => pmapSet m w rank
  | some cur => pmapSet m w (min cur rank)

/-- `sorted(results, key=lambda we: we.highest, reverse=True)`: stable sort,
largest `highest` first; Python's `reverse=True` keeps tied elements in their
original relative order, as does a stable sort with this relation. -/
def highestGe (a b : WordExtreme) : Prop := b.highest ≤ a.highest

instance : DecidableRel highestGe := fun a b =>
  inferInstanceAs (Decidable (b.highest ≤ a.highest))

/-- `sorted(results, key=lambda we: we.lowest)`: stable sort, smallest `lowest`
first. -/
def lowestLe (a b : WordExtreme) : Prop := a.lowest ≤ b.lowest

instance : DecidableRel lowestLe := fun a b =>
  inferInstanceAs (Decidable (a.lowest ≤ b.lowest))

instance : IsTotal WordExtreme highestGe where
  total a b := le_total b.highest a.highest

instance : IsTrans WordExtreme highestGe where
  trans _ _ _ hab hbc := le_trans hbc hab

/-- The highest pass's sorted measurement list. -/
def highestPass (results : List WordExtreme) : List WordExtreme :=
  results.insertionSort highestGe

instance : IsTotal WordExtreme lowestLe where
  total a b := le_total a.lowest b.lowest

instance : IsTrans WordExtreme lowestLe where
  trans _ _ _ hab hbc := le_trans hab hbc

/-- The lowest pass's sorted measurement list. -/
def lowestPass (results : List WordExtreme) : List WordExtreme :=
  results.insertionSort lowestLe

/-- `enumerate(pass)` turned into the stream of `(word, rank)` pairs a pass
feeds into the accumulation loop. -/
def passPairs (pass : List WordExtreme) : List (String × Nat) :=
  pass.enum.map (fun p => (p.2.word, p.1))

/-- Fold a stream of `(word, rank)` pairs into the priority map. -/
def applyPairs (m : PMap) (ps : List (String × Nat)) : PMap :=
  ps.foldl (fun m p => updateMin m p.1 p.2) m

/-- The body of the per-font loop: the highest pass followed by the lowest pass
over one font's measurement results. -/
def processFont (m : PMap) (results : List WordExtreme) : PMap :=
  applyPairs (applyPairs m (passPairs (highestPass results))) (passPairs (lowestPass results))

/-- The whole accumulation: `word_priorities` after looping over every font's
results (each font represented by its list of measurement results). -/
def buildPriorities (fonts : List (List WordExtreme)) : PMap :=
  fonts.foldl processFont []

/-- Both passes of one font as one `(word, rank)` stream. -/
def fontPairs (results : List WordExtreme) : List (String × Nat) :=
  passPairs (highestPass results) ++ passPairs (lowestPass results)

/-- Every `(word, rank)` pair produced by any pass of any font, in the order the
script generates them. -/
def allPairs (fonts : List (List WordExtreme)) : List (String × Nat) :=
  fonts.flatMap fontPairs

/-- The ranks a given word achieves in a stream of `(word, rank)` pairs. -/
def ranksOf (w : String) (ps : List (String × Nat)) : List Nat :=
  ps.filterMap (fun p => if p.1 = w then some p.2 else none)

/-- Python's `<=` on strings: code-point lexicographic comparison of the
character sequences. -/
def charListLe : List Char → List Char → Prop
  | [], _ => True
  | _ :: _, [] => False
  | a :: as, b :: bs => a < b ∨ (a = b ∧ charListLe as bs)

def charListLeDec : (as bs : List Char) → Decidable (charListLe as bs)
  | [], _ => .isTrue trivial
  | _a :: _, [] => .isFalse (fun h => h)
  | a :: as, b :: bs =>
    have : Decidable (charListLe as bs) := charListLeDec as bs
    inferInstanceAs (Decidable (a < b ∨ (a = b ∧ charListLe as bs)))

instance : ∀ as bs, Decidable (charListLe as bs) := charListLeDec

/-- Python's `<=` on words (strings compare by code points). -/
def strLe (a b : String) : Prop := charListLe a.data b.data

instance : DecidableRel strLe := fun a b =>
  inferInstanceAs (Decidable (charListLe a.data b.data))

/-- Python's ordering on the `(index, word)` tuples built at lines 95–100:
lexicographic on the pair, comparing words by code points. -/
def pairLe (p q : Nat × String) : Prop :=
  p.1 < q.1 ∨ (p.1 = q.1 ∧ strLe p.2 q.2)

instance : DecidableRel pairLe := fun p q =>
  inferInstanceAs (Decidable (p.1 < q.1 ∨ (p.1 = q.1 ∧ strLe p.2 q.2)))

/-- Lines 95–100 of the script: flip the map's `(word, index)` items to
`(index, word)`, sort the tuples, and keep the words. -/
def orderedWords (m : PMap) : List String :=
  ((m.map (fun wv => (wv.2, wv.1))).insertionSort pairLe).map Prod.snd

/-- The error taxonomy of the spec: the zero-font assertion is the
`ConfigurationError`, and the failing `del` on a word absent from the original
list is the `ConsistencyError`. -/
inductive JobError where
  | configurationError
  | consistencyError
deriving DecidableEq, Repr

/-- The loop `for word in ordered: del original_word_list[word]`: delete the
listed words one by one, failing (Python's `KeyError`) as soon as a word is not
present. -/
def deleteWords (orig : List String) (ws : List String) : Except JobError (List String) :=
  match ws with
  | [] => .ok orig
  | w :: rest => if w ∈ orig then deleteWords (orig.erase w) rest else .error .consistencyError

/-- `dict.fromkeys(lines)` as an ordered set: keep each line the first time it
is seen, drop later duplicates. -/
def dictFromKeys (lines : List String) : List String :=
  lines.foldl (fun acc w => if w ∈ acc then acc else acc ++ [w]) []

/-- One job of `main`, from the loaded lines and the per-font measurement
results to the final word order (or the error that aborts the job before the
single write of the output file: an `.error` result means the file is neither
written nor modified). -/
def sortJob (lines : List String) (fonts : List (List WordExtreme)) :
    Except JobError (List String) :=
  if fonts.isEmpty then .error .configurationError
  else
    (deleteWords (dictFromKeys lines) (orderedWords (buildPriorities fonts))).map
      (fun rest => orderedWords (buildPriorities fonts) ++ rest)

/-- `"\n".join(ordered) + "\n"`: the exact string written to the word-list
file on success. -/
def serialize (ws : List String) : String :=
  String.intercalate "\n" ws ++ "\n"

/-- The words appearing in any font's measurement results. -/
def measuredWords (fonts : List (List WordExtreme)) : List String :=
  fonts.flatMap (fun r => r.map (fun e => e.word))

/-- A font for the full-job model: its measurement of a word, as a pure
function of the word. -/
structure Font where
  highest : String → Int
  lowest : String → Int

/-- Modelled from the spec: `fontheight._get_all_word_list_extremes` is the
Rust crate's measurement provider, whose code is not part of the scripts;
per §4.1 and §6 it returns, for the named word list, a sequence with one
`{word, highest, lowest}` entry per word of the list. -/
def getAllWordListExtremes (f : Font) (wordList : List String) : List WordExtreme :=
  wordList.map (fun w => ⟨w, f.highest w, f.lowest w⟩)

/-- A full reorder job in which each font's measurements are recomputed from
the current word-list lines by the (spec-modelled) measurement provider. -/
def runFullJob (lines : List String) (fonts : List Font) :
    Except JobError (List String) :=
  sortJob lines (fonts.map (fun f => getAllWordListExtremes f (dictFromKeys lines)))

instance {ε α : Type} [DecidableEq ε] [DecidableEq α] : DecidableEq (Except ε α) :=
  fun a b =>
    match a, b with
    | .error e₁, .error e₂ =>
      if h : e₁ = e₂ then .isTrue (by rw [h])
      else .isFalse (fun hc => h (Except.error.inj hc))
    | .error _, .ok _ => .isFalse (fun hc => Except.noConfusion hc)
    | .ok _, .error _ => .isFalse (fun hc => Except.noConfusion hc)
    | .ok a₁, .ok a₂ =>
      if h : a₁ = a₂ then .isTrue (by rw [h])
      else .isFalse (fun hc => h (Except.ok.inj hc))

/-! ### The priority map as a minimum of ranks -/

/-- Minimum of two optional ranks (`none` = no rank recorded yet). -/
def omin : Option Nat → Option Nat → Option Nat
  | none, b => b
  | some a, none => some a
  | some a, some b => some (min a b)

theorem omin_none_right (a : Option Nat) : omin a none = a := by
  cases a <;> rfl

theorem omin_assoc (a b c : Option Nat) : omin (omin a b) c = omin a (omin b c) := by
  cases a <;> cases b <;> cases c <;> simp [omin, Nat.min_assoc]

theorem min?_cons_eq_omin (a : Nat) (l : List Nat) :
    (a :: l).min? = omin (some a) l.min? := by
  induction l generalizing a with
  | nil => rfl
  | cons b l ih =>
    have h1 : (a :: b :: l).min? = (min a b :: l).min? := rfl
    rw [h1, ih, ih]
    cases l.min? <;> simp [omin, Nat.min_assoc]

theorem pmapGet_pmapSet_self (m : PMap) (w : String) (v : Nat) :
    pmapGet (pmapSet m w v) w = some v := by
  induction m with
  | nil => simp [pmapSet, pmapGet]
  | cons e rest ih =>
    obtain ⟨w', v'⟩ := e
    by_cases h : w' = w
    · subst h; simp [pmapSet, pmapGet]
    · simp [pmapSet, pmapGet, h, ih]

theorem pmapGet_pmapSet_ne (m : PMap) (w w' : String) (v : Nat) (h : w' ≠ w) :
    pmapGet (pmapSet m w v) w' = pmapGet m w' := by
  induction m with
  | nil => simp [pmapSet, pmapGet, Ne.symm h]
  | cons e rest ih =>
    obtain ⟨w'', v''⟩ := e
    by_cases hw : w'' = w
    · subst hw
      simp [pmapSet, pmapGet, Ne.symm h]
    · simp [pmapSet, pmapGet, hw, ih]

theorem pmapGet_updateMin_self (m : PMap) (w : String) (r : Nat) :
    pmapGet (updateMin m w r) w = omin (pmapGet m w) (some r) := by
  unfold updateMin
  cases h : pmapGet m w <;> simp [omin, pmapGet_pmapSet_self]

theorem pmapGet_updateMin_ne (m : PMap) (w w' : String) (r : Nat) (h : w' ≠ w) :
    pmapGet (updateMin m w r) w' = pmapGet m w' := by
  unfold updateMin
  cases pmapGet m w <;> simp [pmapGet_pmapSet_ne _ _ _ _ h]

theorem applyPairs_cons (m : PMap) (p : String × Nat) (rest : List (String × Nat)) :
    applyPairs m (p :: rest) = applyPairs (updateMin m p.1 p.2) rest := rfl

theorem ranksOf_cons_self (w : String) (r : Nat) (rest : List (String × Nat)) :
    ranksOf w ((w, r) :: rest) = r :: ranksOf w rest := by
  simp [ranksOf]

theorem ranksOf_cons_ne (w w' : String) (r : Nat) (rest : List (String × Nat))
    (h : w' ≠ w) : ranksOf w ((w', r) :: rest) = ranksOf w rest := by
  simp [ranksOf, h]

theorem pmapGet_applyPairs (ps : List (String × Nat)) (m : PMap) (w : String) :
    pmapGet (applyPairs m ps) w = omin (pmapGet m w) (ranksOf w ps).min? := by
  induction ps generalizing m with
  | nil => simp [applyPairs, ranksOf, omin_none_right]
  | cons p rest ih =>
    obtain ⟨w', r⟩ := p
    rw [applyPairs_cons, ih]
    by_cases h : w' = w
    · subst h
      rw [pmapGet_updateMin_self, ranksOf_cons_self, min?_cons_eq_omin, ← omin_assoc]
    · rw [pmapGet_updateMin_ne _ _ _ _ (fun he => h he.symm), ranksOf_cons_ne _ _ _ _ h]

theorem applyPairs_append (m : PMap) (ps qs : List (String × Nat)) :
    applyPairs m (ps ++ qs) = applyPairs (applyPairs m ps) qs := by
  simp [applyPairs, List.foldl_append]

theorem processFont_eq (m : PMap) (results : List WordExtreme) :
    processFont m results = applyPairs m (fontPairs results) := by
  rw [fontPairs, applyPairs_append]; rfl

theorem foldl_processFont_eq (fonts : List (List WordExtreme)) (m : PMap) :
    fonts.foldl processFont m = applyPairs m (allPairs fonts) := by
  induction fonts generalizing m with
  | nil => rfl
  | cons r fs ih =>
    have h : allPairs (r :: fs) = fontPairs r ++ allPairs fs := by
      simp [allPairs]
    rw [List.foldl_cons, ih, h, applyPairs_append, processFont_eq]

theorem buildPriorities_eq (fonts : List (List WordExtreme)) :
    buildPriorities fonts = applyPairs [] (allPairs fonts) :=
  foldl_processFont_eq fonts []

theorem pmapGet_buildPriorities (fonts : List (List WordExtreme)) (w : String) :
    pmapGet (buildPriorities fonts) w = (ranksOf w (allPairs fonts)).min? := by
  rw [buildPriorities_eq, pmapGet_applyPairs]
  rfl

/-- C1: the priority finally recorded for a word `w` equals the minimum
0-based rank `w` achieved over all passes (highest-descending and
lowest-ascending) of all fonts; in particular it is `some 0` exactly when `w`
is ranked 0th in some pass, and `none` when `w` is never measured. -/
theorem C1_priority_eq_min_rank (fonts : List (List WordExtreme)) (w : String) :
    pmapGet (buildPriorities fonts) w = (ranksOf w (allPairs fonts)).min? :=
  pmapGet_buildPriorities fonts w

/-! ### The tuple order used for the final sort -/

theorem charListLe_refl : ∀ as, charListLe as as
  | [] => trivial
  | _ :: as => Or.inr ⟨rfl, charListLe_refl as⟩

theorem charListLe_total : ∀ as bs, charListLe as bs ∨ charListLe bs as
  | [], _ => Or.inl trivial
  | _ :: _, [] => Or.inr trivial
  | a :: as, b :: bs => by
    rcases lt_trichotomy a b with h | h | h
    · exact Or.inl (Or.inl h)
    · rcases charListLe_total as bs with h' | h'
      · exact Or.inl (Or.inr ⟨h, h'⟩)
      · exact Or.inr (Or.inr ⟨h.symm, h'⟩)
    · exact Or.inr (Or.inl h)

theorem charListLe_trans : ∀ {as bs cs}, charListLe as bs → charListLe bs cs →
    charListLe as cs
  | [], _, _, _, _ => trivial
  | _ :: _, [], _, h, _ => absurd h (fun h => h)
  | _ :: _, _ :: _, [], _, h => absurd h (fun h => h)
  | a :: as, b :: bs, c :: cs, h1, h2 => by
    rcases h1 with h1 | ⟨rfl, h1⟩
    · rcases h2 with h2 | ⟨rfl, h2⟩
      · exact Or.inl (h1.trans h2)
      · exact Or.inl h1
    · rcases h2 with h2 | ⟨rfl, h2⟩
      · exact Or.inl h2
      · exact Or.inr ⟨rfl, charListLe_trans h1 h2⟩

theorem charListLe_antisymm : ∀ {as bs}, charListLe as bs → charListLe bs as →
    as = bs
  | [], [], _, _ => rfl
  | _ :: _, [], h, _ => absurd h (fun h => h)
  | [], _ :: _, _, h => absurd h (fun h => h)
  | a :: as, b :: bs, h1, h2 => by
    rcases h1 with h1 | ⟨e1, t1⟩
    · rcases h2 with h2 | ⟨e2, t2⟩
      · exact absurd (h1.trans h2) (lt_irrefl a)
      · subst e2
        exact absurd h1 (lt_irrefl b)
    · rcases h2 with h2 | ⟨e2, t2⟩
      · subst e1
        exact absurd h2 (lt_irrefl a)
      · subst e1
        rw [charListLe_antisymm t1 t2]

theorem strLe_refl (a : String) : strLe a a := charListLe_refl a.data

theorem strLe_total (a b : String) : strLe a b ∨ strLe b a :=
  charListLe_total a.data b.data

theorem strLe_trans {a b c : String} (h1 : strLe a b) (h2 : strLe b c) : strLe a c :=
  charListLe_trans h1 h2

theorem strLe_antisymm {a b : String} (h1 : strLe a b) (h2 : strLe b a) : a = b := by
  cases a; cases b
  exact congrArg String.mk (charListLe_antisymm h1 h2)

theorem pairLe_refl (p : Nat × String) : pairLe p p := Or.inr ⟨rfl, strLe_refl p.2⟩

instance : IsTotal (Nat × String) pairLe where
  total p q := by
    rcases Nat.lt_trichotomy p.1 q.1 with h | h | h
    · exact Or.inl (Or.inl h)
    · rcases strLe_total p.2 q.2 with h' | h'
      · exact Or.inl (Or.inr ⟨h, h'⟩)
      · exact Or.inr (Or.inr ⟨h.symm, h'⟩)
    · exact Or.inr (Or.inl h)

instance : IsTrans (Nat × String) pairLe where
  trans p q r hpq hqr := by
    rcases hpq with h1 | ⟨e1, l1⟩
    · rcases hqr with h2 | ⟨e2, l2⟩
      · exact Or.inl (h1.trans h2)
      · exact Or.inl (e2 ▸ h1)
    · rcases hqr with h2 | ⟨e2, l2⟩
      · exact Or.inl (e1 ▸ h2)
      · exact Or.inr ⟨e1.trans e2, strLe_trans l1 l2⟩

instance : IsAntisymm (Nat × String) pairLe where
  antisymm p q hpq hqp := by
    obtain ⟨a, s⟩ := p
    obtain ⟨b, t⟩ := q
    rcases hpq with h1 | ⟨e1, l1⟩
    · rcases hqp with h2 | ⟨e2, l2⟩
      · exact absurd (h1.trans h2) (lt_irrefl a)
      · exact absurd h1 (by simp_all)
    · rcases hqp with h2 | ⟨e2, l2⟩
      · exact absurd h2 (by simp_all)
      · cases e1
        cases strLe_antisymm l1 l2
        rfl

/-! ### Tie-breaking in the final sort (C2) -/

theorem mem_of_pmapGet_eq_some {m : PMap} {w : String} {v : Nat}
    (h : pmapGet m w = some v) : (w, v) ∈ m := by
  induction m with
  | nil => simp [pmapGet] at h
  | cons e rest ih =>
    obtain ⟨w', v'⟩ := e
    by_cases hw : w' = w
    · subst hw
      have hv : some v' = some v := by simpa [pmapGet] using h
      cases hv
      exact List.mem_cons_self _ _
    · rw [pmapGet, if_neg hw] at h
      exact List.mem_cons_of_mem _ (ih h)

/-- In a list sorted by `pairLe`, an element strictly below another (the second
does not compare back) occurs before it: the two form a sublist. -/
theorem pair_sublist_of_sorted :
    ∀ {l : List (Nat × String)}, l.Sorted pairLe →
      ∀ {a b : Nat × String}, a ∈ l → b ∈ l → ¬ pairLe b a → List.Sublist [a, b] l := by
  intro l
  induction l with
  | nil => intro _ a b ha; cases ha
  | cons x rest ih =>
    intro hs a b ha hb hba
    rcases List.sorted_cons.mp hs with ⟨hx, hrest⟩
    rcases List.mem_cons.mp ha with rfl | ha'
    · rcases List.mem_cons.mp hb with rfl | hb'
      · exact absurd (pairLe_refl b) hba
      · exact (List.singleton_sublist.mpr hb').cons₂ a
    · rcases List.mem_cons.mp hb with rfl | hb'
      · exact absurd (hx a ha') hba
      · exact (ih hrest ha' hb' hba).cons x

/-- The font used to refute the insertion-order tie-break: `"b"` is ranked 0th
in the highest pass (and so is inserted into the priority map first), `"a"` is
ranked 0th in the lowest pass; both end with priority 0. -/
def tieFont : List WordExtreme := [⟨"b", 10, 0⟩, ⟨"a", 5, -5⟩]

/-- C2 counterexample: with `tieFont`, the accumulation stream starts with
`("b", 0)` — so `"b"` is encountered and inserted first — and both words end
with final priority 0, yet the output is `["a", "b"]`: the earlier-inserted
word does **not** precede the other; ties are broken by code-point order of the
words, not by insertion order. -/
theorem C2_counterexample :
    allPairs [tieFont] = [("b", 0), ("a", 1), ("a", 0), ("b", 1)] ∧
    buildPriorities [tieFont] = [("b", 0), ("a", 0)] ∧
    pmapGet (buildPriorities [tieFont]) "b" = some 0 ∧
    pmapGet (buildPriorities [tieFont]) "a" = some 0 ∧
    orderedWords (buildPriorities [tieFont]) = ["a", "b"] ∧
    ¬ List.Sublist ["b", "a"] (orderedWords (buildPriorities [tieFont])) := by
  refine ⟨by decide, by decide, by decide, by decide, by decide, ?_⟩
  intro h
  have he : orderedWords (buildPriorities [tieFont]) = ["a", "b"] := by decide
  rw [he] at h
  exact absurd h (by decide)

/-- C2 amended: when several words end up with the same final priority, they
appear in the output in ascending code-point (lexicographic) order of the
words — the tuple sort at lines 95–100 compares `(priority, word)` pairs, so
equal priorities are ordered by the word strings, not by insertion order. -/
theorem C2_tie_break_is_lexicographic (fonts : List (List WordExtreme))
    (w1 w2 : String) (p : Nat)
    (h1 : pmapGet (buildPriorities fonts) w1 = some p)
    (h2 : pmapGet (buildPriorities fonts) w2 = some p)
    (hlt : ¬ strLe w2 w1) :
    List.Sublist [w1, w2] (orderedWords (buildPriorities fonts)) := by
  have hm1 : (p, w1) ∈ (buildPriorities fonts).map (fun wv => (wv.2, wv.1)) :=
    List.mem_map.mpr ⟨(w1, p), mem_of_pmapGet_eq_some h1, rfl⟩
  have hm2 : (p, w2) ∈ (buildPriorities fonts).map (fun wv => (wv.2, wv.1)) :=
    List.mem_map.mpr ⟨(w2, p), mem_of_pmapGet_eq_some h2, rfl⟩
  have hs := List.sorted_insertionSort pairLe
    ((buildPriorities fonts).map (fun wv => (wv.2, wv.1)))
  have hba : ¬ pairLe (p, w2) (p, w1) := by
    rintro (h | ⟨-, h⟩)
    · exact lt_irrefl p h
    · exact hlt h
  have hsub := pair_sublist_of_sorted hs
    ((List.mem_insertionSort pairLe).mpr hm1)
    ((List.mem_insertionSort pairLe).mpr hm2) hba
  simpa [orderedWords] using hsub.map Prod.snd

/-- Witness for the amended C2 at the concrete `tieFont` input. -/
theorem C2_tie_break_is_lexicographic_witness :
    pmapGet (buildPriorities [tieFont]) "a" = some 0 ∧
    pmapGet (buildPriorities [tieFont]) "b" = some 0 ∧
    ¬ strLe "b" "a" ∧
    List.Sublist ["a", "b"] (orderedWords (buildPriorities [tieFont])) :=
  ⟨by decide, by decide, by decide,
    C2_tie_break_is_lexicographic [tieFont] "a" "b" 0 (by decide) (by decide) (by decide)⟩

/-! ### Keys of the priority map -/

theorem keys_pmapSet (m : PMap) (w : String) (v : Nat) :
    (pmapSet m w v).map Prod.fst =
      if w ∈ m.map Prod.fst then m.map Prod.fst else m.map Prod.fst ++ [w] := by
  induction m with
  | nil => simp [pmapSet]
  | cons e rest ih =>
    obtain ⟨w', v'⟩ := e
    by_cases h : w' = w
    · subst h
      simp [pmapSet]
    · by_cases hmem : w ∈ rest.map Prod.fst
      · simp [pmapSet, h, ih, hmem, Ne.symm h]
      · simp [pmapSet, h, ih, hmem, Ne.symm h]

theorem keys_updateMin (m : PMap) (w : String) (r : Nat) :
    (updateMin m w r).map Prod.fst =
      if w ∈ m.map Prod.fst then m.map Prod.fst else m.map Prod.fst ++ [w] := by
  unfold updateMin
  cases pmapGet m w <;> rw [keys_pmapSet]

theorem keys_nodup_updateMin (m : PMap) (w : String) (r : Nat)
    (h : (m.map Prod.fst).Nodup) : ((updateMin m w r).map Prod.fst).Nodup := by
  rw [keys_updateMin]
  by_cases hm : w ∈ m.map Prod.fst
  · simpa [hm]
  · simp [hm, List.nodup_append, h]

theorem mem_keys_updateMin (m : PMap) (w : String) (r : Nat) (w' : String) :
    w' ∈ (updateMin m w r).map Prod.fst ↔ w' ∈ m.map Prod.fst ∨ w' = w := by
  rw [keys_updateMin]
  by_cases hm : w ∈ m.map Prod.fst
  · simp only [if_pos hm]
    exact ⟨Or.inl, fun h => h.elim id (fun e => e ▸ hm)⟩
  · simp [hm]

theorem keys_nodup_applyPairs (ps : List (String × Nat)) (m : PMap)
    (h : (m.map Prod.fst).Nodup) : ((applyPairs m ps).map Prod.fst).Nodup := by
  induction ps generalizing m with
  | nil => exact h
  | cons p rest ih =>
    rw [applyPairs_cons]
    exact ih _ (keys_nodup_updateMin _ _ _ h)

theorem mem_keys_applyPairs (ps : List (String × Nat)) (m : PMap) (w' : String) :
    w' ∈ (applyPairs m ps).map Prod.fst ↔
      w' ∈ m.map Prod.fst ∨ w' ∈ ps.map Prod.fst := by
  induction ps generalizing m with
  | nil => simp [applyPairs]
  | cons p rest ih =>
    rw [applyPairs_cons, ih, mem_keys_updateMin]
    simp [or_assoc, eq_comm]

theorem keys_nodup_buildPriorities (fonts : List (List WordExtreme)) :
    ((buildPriorities fonts).map Prod.fst).Nodup := by
  rw [buildPriorities_eq]
  exact keys_nodup_applyPairs _ _ (by simp)

theorem mem_keys_buildPriorities (fonts : List (List WordExtreme)) (w : String) :
    w ∈ (buildPriorities fonts).map Prod.fst ↔ w ∈ (allPairs fonts).map Prod.fst := by
  rw [buildPriorities_eq, mem_keys_applyPairs]
  simp

theorem map_fst_passPairs (s : List WordExtreme) :
    (passPairs s).map Prod.fst = s.map (fun e => e.word) := by
  unfold passPairs
  rw [List.map_map]
  have h : (Prod.fst ∘ fun p : Nat × WordExtreme => (p.2.word, p.1)) =
      (fun e : WordExtreme => e.word) ∘ Prod.snd := rfl
  rw [h, ← List.map_map, List.enum_map_snd]

theorem mem_map_word_insertionSort (r : WordExtreme → WordExtreme → Prop)
    [DecidableRel r] (s : List WordExtreme) (w : String) :
    w ∈ (s.insertionSort r).map (fun e => e.word) ↔ w ∈ s.map (fun e => e.word) :=
  ((List.perm_insertionSort r s).map (fun e => e.word)).mem_iff

theorem mem_map_fst_allPairs (fonts : List (List WordExtreme)) (w : String) :
    w ∈ (allPairs fonts).map Prod.fst ↔ w ∈ measuredWords fonts := by
  unfold allPairs measuredWords
  simp only [List.map_flatMap, List.mem_flatMap]
  constructor
  · rintro ⟨r, hr, hw⟩
    refine ⟨r, hr, ?_⟩
    rw [fontPairs, List.map_append, List.mem_append, map_fst_passPairs,
      map_fst_passPairs] at hw
    rcases hw with hw | hw
    · exact (mem_map_word_insertionSort highestGe r w).mp hw
    · exact (mem_map_word_insertionSort lowestLe r w).mp hw
  · rintro ⟨r, hr, hw⟩
    refine ⟨r, hr, ?_⟩
    rw [fontPairs, List.map_append, List.mem_append, map_fst_passPairs,
      map_fst_passPairs]
    exact Or.inl ((mem_map_word_insertionSort highestGe r w).mpr hw)

theorem mem_keys_iff_measured (fonts : List (List WordExtreme)) (w : String) :
    w ∈ (buildPriorities fonts).map Prod.fst ↔ w ∈ measuredWords fonts := by
  rw [mem_keys_buildPriorities, mem_map_fst_allPairs]

/-- The ranked output block is a permutation of the priority map's keys. -/
theorem orderedWords_perm (m : PMap) :
    (orderedWords m).Perm (m.map Prod.fst) := by
  unfold orderedWords
  have h2 := (List.perm_insertionSort pairLe
    (m.map (fun wv => (wv.2, wv.1)))).map Prod.snd
  simpa [List.map_map, Function.comp] using h2

theorem orderedWords_nodup (fonts : List (List WordExtreme)) :
    (orderedWords (buildPriorities fonts)).Nodup :=
  ((orderedWords_perm (buildPriorities fonts)).nodup_iff).mpr
    (keys_nodup_buildPriorities fonts)

/-! ### Loading the word list: duplicates collapse to their first occurrence -/

/-- The spec's description of loading, stated independently of the
`dict.fromkeys` idiom: keep each line, dropping every later line that
duplicates it. -/
def keepFirstOccurrences : List String → List String
  | [] => []
  | w :: rest => w :: keepFirstOccurrences (rest.filter (fun v => v != w))
termination_by l => l.length
decreasing_by
  simp only [List.length_cons]
  exact Nat.lt_succ_of_le (List.length_filter_le _ _)

theorem foldl_dedup_go (l : List String) (acc : List String) :
    l.foldl (fun acc w => if w ∈ acc then acc else acc ++ [w]) acc
      = acc ++ keepFirstOccurrences (l.filter (fun w => decide (w ∉ acc))) := by
  induction l generalizing acc with
  | nil => simp [keepFirstOccurrences]
  | cons w rest ih =>
    by_cases hw : w ∈ acc
    · rw [List.foldl_cons, if_pos hw, ih]
      have hf : (w :: rest).filter (fun w => decide (w ∉ acc))
          = rest.filter (fun w => decide (w ∉ acc)) := by
        rw [List.filter_cons]
        simp [hw]
      rw [hf]
    · rw [List.foldl_cons, if_neg hw, ih]
      have hf : (w :: rest).filter (fun w => decide (w ∉ acc))
          = w :: rest.filter (fun w => decide (w ∉ acc)) := by
        rw [List.filter_cons]
        simp [hw]
      rw [hf, keepFirstOccurrences]
      have hff : (rest.filter (fun w => decide (w ∉ acc))).filter (fun v => v != w)
          = rest.filter (fun v => decide (v ∉ acc ++ [w])) := by
        rw [List.filter_filter]
        apply List.filter_congr
        intro v _
        by_cases h1 : v = w
        · simp [h1]
        · by_cases h2 : v ∈ acc <;> simp [h1, h2]
      rw [hff]
      simp

theorem dictFromKeys_eq_keepFirstOccurrences (lines : List String) :
    dictFromKeys lines = keepFirstOccurrences lines := by
  unfold dictFromKeys
  rw [foldl_dedup_go]
  simp

theorem mem_keepFirstOccurrences : ∀ (l : List String) (v : String),
    v ∈ keepFirstOccurrences l ↔ v ∈ l
  | [] => by simp [keepFirstOccurrences]
  | w :: rest => by
    intro v
    rw [keepFirstOccurrences]
    by_cases h : v = w
    · simp [h]
    · have ih := mem_keepFirstOccurrences (rest.filter (fun v => v != w)) v
      simp only [List.mem_cons, h, false_or, ih, List.mem_filter]
      simp [h]
termination_by l => l.length
decreasing_by
  simp only [List.length_cons]
  exact Nat.lt_succ_of_le (List.length_filter_le _ _)

theorem nodup_keepFirstOccurrences : ∀ (l : List String),
    (keepFirstOccurrences l).Nodup
  | [] => by simp [keepFirstOccurrences]
  | w :: rest => by
    rw [keepFirstOccurrences]
    refine List.nodup_cons.mpr ⟨?_, nodup_keepFirstOccurrences _⟩
    intro hmem
    have := (mem_keepFirstOccurrences _ _).mp hmem
    simp at this
termination_by l => l.length
decreasing_by
  simp only [List.length_cons]
  exact Nat.lt_succ_of_le (List.length_filter_le _ _)

theorem dictFromKeys_nodup (lines : List String) : (dictFromKeys lines).Nodup := by
  rw [dictFromKeys_eq_keepFirstOccurrences]
  exact nodup_keepFirstOccurrences lines

theorem mem_dictFromKeys (lines : List String) (v : String) :
    v ∈ dictFromKeys lines ↔ v ∈ lines := by
  rw [dictFromKeys_eq_keepFirstOccurrences]
  exact mem_keepFirstOccurrences lines v

/-- C8: loading a word list collapses duplicate lines to their first
occurrence — the `dict.fromkeys` ordered-set load equals the list obtained by
keeping each line and dropping every later duplicate of it, and the loaded
list has no duplicates while containing exactly the input's words. -/
theorem C8_load_dedups_to_first_occurrence (lines : List String) :
    dictFromKeys lines = keepFirstOccurrences lines ∧
    (dictFromKeys lines).Nodup ∧
    (∀ v, v ∈ dictFromKeys lines ↔ v ∈ lines) :=
  ⟨dictFromKeys_eq_keepFirstOccurrences lines, dictFromKeys_nodup lines,
    mem_dictFromKeys lines⟩

/-! ### The deletion loop and the driver -/

theorem perm_of_nodup_of_mem_iff {α : Type} {l₁ l₂ : List α} (h1 : l₁.Nodup)
    (h2 : l₂.Nodup) (h : ∀ a, a ∈ l₁ ↔ a ∈ l₂) : l₁.Perm l₂ :=
  (h1.subperm (fun _ ha => (h _).1 ha)).antisymm (h2.subperm (fun _ ha => (h _).2 ha))

theorem deleteWords_ok : ∀ (ws orig : List String), orig.Nodup → ws.Nodup →
    (∀ w ∈ ws, w ∈ orig) →
    deleteWords orig ws = .ok (orig.filter (fun v => decide (v ∉ ws)))
  | [], orig, _, _, _ => by simp [deleteWords]
  | w :: rest, orig, hod, hnd, hsub => by
    have hw : w ∈ orig := hsub w (List.mem_cons_self _ _)
    rw [deleteWords, if_pos hw]
    have herase : orig.erase w = orig.filter (fun v => v != w) :=
      List.Nodup.erase_eq_filter hod w
    have hnd' := List.nodup_cons.mp hnd
    have ih := deleteWords_ok rest (orig.erase w) (hod.erase w) hnd'.2
      (fun v hv => by
        rw [herase, List.mem_filter]
        refine ⟨hsub v (List.mem_cons_of_mem _ hv), ?_⟩
        have hvw : v ≠ w := fun he => hnd'.1 (he ▸ hv)
        simpa using hvw)
    rw [ih, herase, List.filter_filter]
    congr 1
    apply List.filter_congr
    intro v _
    by_cases h1 : v = w
    · simp [h1]
    · by_cases h2 : v ∈ rest <;> simp [h1, h2]

theorem deleteWords_error : ∀ (ws orig : List String),
    (∃ w ∈ ws, w ∉ orig) → deleteWords orig ws = .error .consistencyError
  | [], _, h => by simp at h
  | w :: rest, orig, h => by
    by_cases hw : w ∈ orig
    · rw [deleteWords, if_pos hw]
      obtain ⟨w', hw', hno⟩ := h
      rcases List.mem_cons.mp hw' with rfl | hw'
      · exact absurd hw hno
      · exact deleteWords_error rest (orig.erase w)
          ⟨w', hw', fun hmem => hno (List.mem_of_mem_erase hmem)⟩
    · rw [deleteWords, if_neg hw]

theorem mem_measuredWords {fonts : List (List WordExtreme)} {w : String} :
    w ∈ measuredWords fonts ↔ ∃ r ∈ fonts, ∃ e ∈ r, e.word = w := by
  simp [measuredWords]

/-- The driver on a successful job: the output is the ranked words followed by
the original (deduplicated) words that appear in no font's measurements, the
latter in their original order. -/
theorem sortJob_spec (lines : List String) (fonts : List (List WordExtreme))
    (hne : fonts ≠ [])
    (hsub : ∀ r ∈ fonts, ∀ e ∈ r, e.word ∈ dictFromKeys lines) :
    sortJob lines fonts = .ok (orderedWords (buildPriorities fonts)
      ++ (dictFromKeys lines).filter (fun v => decide (v ∉ measuredWords fonts))) := by
  unfold sortJob
  rw [if_neg (by simpa using hne)]
  have hword : ∀ w ∈ orderedWords (buildPriorities fonts), w ∈ dictFromKeys lines := by
    intro w hw
    have hm : w ∈ measuredWords fonts :=
      (mem_keys_iff_measured fonts w).mp ((orderedWords_perm _).subset hw)
    obtain ⟨r, hr, e, he, hew⟩ := mem_measuredWords.mp hm
    exact hew ▸ hsub r hr e he
  rw [deleteWords_ok _ _ (dictFromKeys_nodup lines) (orderedWords_nodup fonts) hword]
  have hf : (dictFromKeys lines).filter
        (fun v => decide (v ∉ orderedWords (buildPriorities fonts)))
      = (dictFromKeys lines).filter (fun v => decide (v ∉ measuredWords fonts)) := by
    apply List.filter_congr
    intro v _
    have hiff : v ∈ orderedWords (buildPriorities fonts) ↔ v ∈ measuredWords fonts := by
      rw [(orderedWords_perm _).mem_iff]
      exact mem_keys_iff_measured fonts v
    simp [hiff]
  rw [hf]
  rfl

/-- C3: when every measured word occurs in the loaded word list and at least
one font was resolved, the written word order is a permutation of the loaded
(deduplicated) word list: same words, same cardinality, no duplicates gained
or lost. -/
theorem C3_output_is_permutation (lines : List String)
    (fonts : List (List WordExtreme)) (hne : fonts ≠ [])
    (hsub : ∀ r ∈ fonts, ∀ e ∈ r, e.word ∈ dictFromKeys lines) :
    ∃ out, sortJob lines fonts = .ok out ∧ out.Perm (dictFromKeys lines) := by
  refine ⟨_, sortJob_spec lines fonts hne hsub, ?_⟩
  have h1 : (orderedWords (buildPriorities fonts)).Perm
      ((dictFromKeys lines).filter (fun v => decide (v ∈ measuredWords fonts))) := by
    refine perm_of_nodup_of_mem_iff (orderedWords_nodup fonts)
      ((dictFromKeys_nodup lines).filter _) (fun a => ?_)
    rw [(orderedWords_perm _).mem_iff, mem_keys_iff_measured, List.mem_filter]
    constructor
    · intro hm
      obtain ⟨r, hr, e, he, hew⟩ := mem_measuredWords.mp hm
      exact ⟨hew ▸ hsub r hr e he, by simpa using hm⟩
    · intro hm
      simpa using hm.2
  have h2 := h1.append_right
    ((dictFromKeys lines).filter (fun v => decide (v ∉ measuredWords fonts)))
  refine h2.trans ?_
  have h3 := List.filter_append_perm
    (fun v => decide (v ∈ measuredWords fonts)) (dictFromKeys lines)
  refine List.Perm.trans ?_ h3
  apply List.Perm.append_left
  apply List.Perm.of_eq
  apply List.filter_congr
  intro v _
  simp

/-- C5: words that appear in no font's measurement results come strictly after
all ranked words — the output is the ranked block followed by exactly the
unmeasured words of the loaded list, which keep their original relative order
(they are a `filter` of the loaded list); every word of the ranked block is
measured. -/
theorem C5_unmeasured_words_trail_in_original_order (lines : List String)
    (fonts : List (List WordExtreme)) (hne : fonts ≠ [])
    (hsub : ∀ r ∈ fonts, ∀ e ∈ r, e.word ∈ dictFromKeys lines) :
    sortJob lines fonts = .ok (orderedWords (buildPriorities fonts)
      ++ (dictFromKeys lines).filter (fun v => decide (v ∉ measuredWords fonts))) ∧
    ∀ w ∈ orderedWords (buildPriorities fonts), w ∈ measuredWords fonts :=
  ⟨sortJob_spec lines fonts hne hsub,
    fun w hw => (mem_keys_iff_measured fonts w).mp ((orderedWords_perm _).subset hw)⟩

/-- C6: a job whose font selector resolves to zero fonts fails with the
configuration error (the script's zero-font assertion), and since the result
is an error, the output word list is neither written nor modified. -/
theorem C6_zero_fonts_fail (lines : List String) :
    sortJob lines [] = .error .configurationError := rfl

/-- C7: when some measurement references a word absent from the loaded word
list, the job fails with the consistency error (the failing `del`), before the
single write of the output file. -/
theorem C7_unknown_measured_word_fails (lines : List String)
    (fonts : List (List WordExtreme)) (hne : fonts ≠ [])
    (hbad : ∃ r ∈ fonts, ∃ e ∈ r, e.word ∉ dictFromKeys lines) :
    sortJob lines fonts = .error .consistencyError := by
  unfold sortJob
  rw [if_neg (by simpa using hne)]
  obtain ⟨r, hr, e, he, hew⟩ := hbad
  have hmeas : e.word ∈ measuredWords fonts :=
    mem_measuredWords.mpr ⟨r, hr, e, he, rfl⟩
  have hord : e.word ∈ orderedWords (buildPriorities fonts) :=
    (orderedWords_perm _).mem_iff.mpr ((mem_keys_iff_measured fonts _).mpr hmeas)
  rw [deleteWords_error _ _ ⟨e.word, hord, hew⟩]
  rfl

/-- Witness for C3 at a concrete input. -/
theorem C3_output_is_permutation_witness :
    ∃ out, sortJob ["a", "b"] [tieFont] = .ok out ∧ out.Perm ["a", "b"] := by
  obtain ⟨out, hout, hperm⟩ :=
    C3_output_is_permutation ["a", "b"] [tieFont] (by decide) (by decide)
  exact ⟨out, hout, hperm.trans (by decide)⟩

/-- Witness for C5 at a concrete input: `"c"` is never measured and trails. -/
theorem C5_unmeasured_words_trail_witness :
    sortJob ["c", "a", "b"] [tieFont] = .ok (orderedWords (buildPriorities [tieFont])
      ++ (dictFromKeys ["c", "a", "b"]).filter
        (fun v => decide (v ∉ measuredWords [tieFont]))) ∧
    ∀ w ∈ orderedWords (buildPriorities [tieFont]), w ∈ measuredWords [tieFont] :=
  C5_unmeasured_words_trail_in_original_order ["c", "a", "b"] [tieFont]
    (by decide) (by decide)

/-- Witness for C7 at a concrete input: `tieFont` measures `"a"` and `"b"`,
but the word list contains only `"b"`. -/
theorem C7_unknown_measured_word_fails_witness :
    sortJob ["b"] [tieFont] = .error .consistencyError :=
  C7_unknown_measured_word_fails ["b"] [tieFont] (by decide) (by decide)

/-! ### Empty word list (C10) -/

theorem buildPriorities_of_all_nil (fonts : List (List WordExtreme))
    (hempty : ∀ r ∈ fonts, r = []) : buildPriorities fonts = [] := by
  rw [buildPriorities_eq]
  have hall : allPairs fonts = [] := by
    induction fonts with
    | nil => rfl
    | cons r fs ih =>
      have hr := hempty r (List.mem_cons_self _ _)
      have hfs := ih (fun r' h' => hempty r' (List.mem_cons_of_mem _ h'))
      have hcons : allPairs (r :: fs) = fontPairs r ++ allPairs fs := by
        simp [allPairs]
      rw [hcons, hr, hfs]
      rfl
  rw [hall]
  rfl

/-- C10: for an empty word list (no lines loaded, every font measuring the
empty list), the job does not fail: the result is the empty ranked list, and
the file is overwritten with exactly one newline character. -/
theorem C10_empty_word_list_writes_newline (fonts : List (List WordExtreme))
    (hne : fonts ≠ []) (hempty : ∀ r ∈ fonts, r = []) :
    sortJob [] fonts = .ok [] ∧ serialize [] = "\n" := by
  constructor
  · unfold sortJob
    rw [if_neg (by simpa using hne), buildPriorities_of_all_nil fonts hempty]
    rfl
  · rfl

/-- Witness for C10: one font, measuring the empty word list. -/
theorem C10_empty_word_list_writes_newline_witness :
    sortJob [] [([] : List WordExtreme)] = .ok [] ∧ serialize [] = "\n" :=
  C10_empty_word_list_writes_newline [[]] (by decide) (by decide)

/-! ### Font order invariance (C9) -/

theorem min?_perm {l₁ l₂ : List Nat} (h : l₁.Perm l₂) : l₁.min? = l₂.min? := by
  cases h1 : l₁.min? with
  | none =>
    rw [List.min?_eq_none_iff] at h1
    subst h1
    rw [h.symm.eq_nil]
    rfl
  | some a =>
    rw [List.min?_eq_some_iff'] at h1
    symm
    rw [List.min?_eq_some_iff']
    exact ⟨h.mem_iff.mp h1.1, fun b hb => h1.2 b (h.mem_iff.mpr hb)⟩

theorem pmapGet_eq_some_of_mem {m : PMap} (hnd : (m.map Prod.fst).Nodup)
    {w : String} {v : Nat} (hmem : (w, v) ∈ m) : pmapGet m w = some v := by
  induction m with
  | nil => cases hmem
  | cons e rest ih =>
    obtain ⟨w', v'⟩ := e
    rw [List.map_cons] at hnd
    have hnd' := List.nodup_cons.mp hnd
    by_cases hww : w' = w
    · subst hww
      rcases List.mem_cons.mp hmem with heq | hmem'
      · injection heq with h1 h2
        subst h2
        rw [pmapGet, if_pos rfl]
      · exact absurd (List.mem_map.mpr ⟨(w', v), hmem', rfl⟩) hnd'.1
    · rw [pmapGet, if_neg hww]
      rcases List.mem_cons.mp hmem with heq | hmem'
      · exact absurd (congrArg Prod.fst heq).symm hww
      · exact ih hnd'.2 hmem'

theorem pmap_perm_of_get_eq {m₁ m₂ : PMap}
    (h1 : (m₁.map Prod.fst).Nodup) (h2 : (m₂.map Prod.fst).Nodup)
    (h : ∀ w, pmapGet m₁ w = pmapGet m₂ w) : m₁.Perm m₂ := by
  refine perm_of_nodup_of_mem_iff (h1.of_map _) (h2.of_map _) (fun p => ?_)
  obtain ⟨w, v⟩ := p
  constructor
  · intro hm
    exact mem_of_pmapGet_eq_some ((h w) ▸ pmapGet_eq_some_of_mem h1 hm)
  · intro hm
    exact mem_of_pmapGet_eq_some ((h w).symm ▸ pmapGet_eq_some_of_mem h2 hm)

theorem orderedWords_eq_of_perm {m₁ m₂ : PMap} (hp : m₁.Perm m₂) :
    orderedWords m₁ = orderedWords m₂ := by
  unfold orderedWords
  congr 1
  exact List.eq_of_perm_of_sorted
    (((List.perm_insertionSort _ _).trans (hp.map _)).trans
      (List.perm_insertionSort _ _).symm)
    (List.sorted_insertionSort pairLe _) (List.sorted_insertionSort pairLe _)

/-- C9: the final priority map (as a mapping) and the written output are
invariant under permuting the order in which fonts are processed: the min
accumulation is order-insensitive and the final sort depends only on the
map's `(priority, word)` contents. -/
theorem C9_font_order_invariance (lines : List String)
    (fonts₁ fonts₂ : List (List WordExtreme)) (hp : fonts₁.Perm fonts₂) :
    (∀ w, pmapGet (buildPriorities fonts₁) w = pmapGet (buildPriorities fonts₂) w) ∧
    sortJob lines fonts₁ = sortJob lines fonts₂ := by
  have hget : ∀ w, pmapGet (buildPriorities fonts₁) w
      = pmapGet (buildPriorities fonts₂) w := by
    intro w
    rw [pmapGet_buildPriorities, pmapGet_buildPriorities]
    exact min?_perm ((hp.flatMap_right fontPairs).filterMap _)
  have hperm : (buildPriorities fonts₁).Perm (buildPriorities fonts₂) :=
    pmap_perm_of_get_eq (keys_nodup_buildPriorities fonts₁)
      (keys_nodup_buildPriorities fonts₂) hget
  refine ⟨hget, ?_⟩
  unfold sortJob
  by_cases he : fonts₁ = []
  · subst he
    rw [hp.symm.eq_nil]
  · have he₂ : fonts₂ ≠ [] := by
      intro h2
      subst h2
      exact he hp.eq_nil
    rw [if_neg (by simpa using he), if_neg (by simpa using he₂),
      orderedWords_eq_of_perm hperm]

/-- Witness for C9: two fonts in both orders over a small word list. -/
theorem C9_font_order_invariance_witness :
    sortJob ["a", "b"] [tieFont, []] = sortJob ["a", "b"] [[], tieFont] :=
  (C9_font_order_invariance ["a", "b"] [tieFont, []] [[], tieFont]
    (List.Perm.swap _ _ _)).2

/-! ### Idempotence of the full job (C4) -/

/-- A font with tied measurements: `"x"` and `"y"` share the highest value, and
every word shares the lowest value 0. -/
def tiedFont : Font where
  highest := fun w => if w = "z" then 5 else 10
  lowest := fun _ => 0

/-- C4 counterexample: with tied measurements, re-running the job on its own
output changes the order. The first run on `["z", "y", "x"]` outputs
`["y", "z", "x"]`; running the job again on that output yields
`["y", "x", "z"]`, because the stable sorts resolve the ties according to the
(changed) word-list order. -/
theorem C4_counterexample :
    runFullJob ["z", "y", "x"] [tiedFont] = .ok ["y", "z", "x"] ∧
    runFullJob ["y", "z", "x"] [tiedFont] = .ok ["y", "x", "z"] ∧
    ¬ runFullJob ["y", "z", "x"] [tiedFont] = .ok ["y", "z", "x"] :=
  ⟨by decide, by decide, by decide⟩

/-- `List.eq_of_perm_of_sorted` with antisymmetry assumed only on the elements
of the lists at hand (the measurement relations are antisymmetric only when
the font has no tied values on the measured words). -/
theorem eq_of_perm_of_sorted_of_antisymm {α : Type} {r : α → α → Prop} :
    ∀ {l₁ l₂ : List α}, l₁.Perm l₂ → l₁.Sorted r → l₂.Sorted r →
      (∀ a ∈ l₁, ∀ b ∈ l₁, r a b → r b a → a = b) → l₁ = l₂ := by
  intro l₁
  induction l₁ with
  | nil =>
    intro l₂ hp _ _ _
    exact hp.symm.eq_nil.symm
  | cons a t₁ ih =>
    intro l₂ hp hs₁ hs₂ hanti
    cases l₂ with
    | nil => exact absurd hp.eq_nil (by simp)
    | cons b t₂ =>
      rcases List.sorted_cons.mp hs₁ with ⟨ha₁, hs₁'⟩
      rcases List.sorted_cons.mp hs₂ with ⟨hb₂, hs₂'⟩
      have hab : a = b := by
        by_cases h : a = b
        · exact h
        · have hbmem : b ∈ a :: t₁ := hp.mem_iff.mpr (List.mem_cons_self b t₂)
          have hamem : a ∈ b :: t₂ := hp.mem_iff.mp (List.mem_cons_self a t₁)
          have hb1 : b ∈ t₁ := by
            rcases List.mem_cons.mp hbmem with he | hm
            · exact absurd he.symm h
            · exact hm
          have ha2 : a ∈ t₂ := by
            rcases List.mem_cons.mp hamem with he | hm
            · exact absurd he h
            · exact hm
          exact hanti a (List.mem_cons_self _ _) b (List.mem_cons_of_mem _ hb1)
            (ha₁ b hb1) (hb₂ a ha2)
      subst hab
      have ht : t₁ = t₂ := ih hp.cons_inv hs₁' hs₂'
        (fun x hx y hy => hanti x (List.mem_cons_of_mem _ hx) y (List.mem_cons_of_mem _ hy))
      rw [ht]

theorem mem_getAllWordListExtremes {f : Font} {ws : List String} {e : WordExtreme}
    (he : e ∈ getAllWordListExtremes f ws) :
    e.word ∈ ws ∧ e = ⟨e.word, f.highest e.word, f.lowest e.word⟩ := by
  obtain ⟨w, hw, rfl⟩ := List.mem_map.mp he
  exact ⟨hw, rfl⟩

theorem keepFirstOccurrences_eq_self : ∀ (l : List String), l.Nodup →
    keepFirstOccurrences l = l
  | [], _ => by simp [keepFirstOccurrences]
  | w :: rest, hnd => by
    rw [keepFirstOccurrences]
    have hnd' := List.nodup_cons.mp hnd
    have hf : rest.filter (fun v => v != w) = rest := by
      apply List.filter_eq_self.mpr
      intro v hv
      have hvw : v ≠ w := fun he => hnd'.1 (he ▸ hv)
      simpa using hvw
    rw [hf, keepFirstOccurrences_eq_self rest hnd'.2]

theorem dictFromKeys_eq_self_of_nodup {l : List String} (h : l.Nodup) :
    dictFromKeys l = l := by
  rw [dictFromKeys_eq_keepFirstOccurrences]
  exact keepFirstOccurrences_eq_self l h

theorem flatMap_congr {α β : Type} {l : List α} {f g : α → List β}
    (h : ∀ a ∈ l, f a = g a) : l.flatMap f = l.flatMap g := by
  induction l with
  | nil => rfl
  | cons a as ih =>
    simp only [List.flatMap_cons]
    rw [h a (List.mem_cons_self _ _), ih (fun x hx => h x (List.mem_cons_of_mem _ hx))]

theorem allPairs_map (fonts : List Font) (ws : List String) :
    allPairs (fonts.map (fun f => getAllWordListExtremes f ws))
      = fonts.flatMap (fun f => fontPairs (getAllWordListExtremes f ws)) := by
  unfold allPairs
  induction fonts with
  | nil => rfl
  | cons f fs ih => simp only [List.map_cons, List.flatMap_cons, ih]

theorem highestPass_gAWLE_eq (f : Font) (ws₁ ws₂ : List String)
    (hperm : ws₁.Perm ws₂)
    (hinj : ∀ w1 ∈ ws₁, ∀ w2 ∈ ws₁, f.highest w1 = f.highest w2 → w1 = w2) :
    highestPass (getAllWordListExtremes f ws₁)
      = highestPass (getAllWordListExtremes f ws₂) := by
  apply eq_of_perm_of_sorted_of_antisymm
  · exact (List.perm_insertionSort _ _).trans
      ((hperm.map _).trans (List.perm_insertionSort _ _).symm)
  · exact List.sorted_insertionSort _ _
  · exact List.sorted_insertionSort _ _
  · intro a ha b hb hab hba
    obtain ⟨ha1, ha2⟩ :=
      mem_getAllWordListExtremes ((List.mem_insertionSort highestGe).mp ha)
    obtain ⟨hb1, hb2⟩ :=
      mem_getAllWordListExtremes ((List.mem_insertionSort highestGe).mp hb)
    have hh : a.highest = b.highest := le_antisymm hba hab
    have hha : a.highest = f.highest a.word := congrArg WordExtreme.highest ha2
    have hhb : b.highest = f.highest b.word := congrArg WordExtreme.highest hb2
    have hw : a.word = b.word := hinj a.word ha1 b.word hb1 (by rw [← hha, ← hhb, hh])
    calc a = ⟨a.word, f.highest a.word, f.lowest a.word⟩ := ha2
      _ = ⟨b.word, f.highest b.word, f.lowest b.word⟩ := by rw [hw]
      _ = b := hb2.symm

theorem lowestPass_gAWLE_eq (f : Font) (ws₁ ws₂ : List String)
    (hperm : ws₁.Perm ws₂)
    (hinj : ∀ w1 ∈ ws₁, ∀ w2 ∈ ws₁, f.lowest w1 = f.lowest w2 → w1 = w2) :
    lowestPass (getAllWordListExtremes f ws₁)
      = lowestPass (getAllWordListExtremes f ws₂) := by
  apply eq_of_perm_of_sorted_of_antisymm
  · exact (List.perm_insertionSort _ _).trans
      ((hperm.map _).trans (List.perm_insertionSort _ _).symm)
  · exact List.sorted_insertionSort _ _
  · exact List.sorted_insertionSort _ _
  · intro a ha b hb hab hba
    obtain ⟨ha1, ha2⟩ :=
      mem_getAllWordListExtremes ((List.mem_insertionSort lowestLe).mp ha)
    obtain ⟨hb1, hb2⟩ :=
      mem_getAllWordListExtremes ((List.mem_insertionSort lowestLe).mp hb)
    have hh : a.lowest = b.lowest := le_antisymm hab hba
    have hha : a.lowest = f.lowest a.word := congrArg WordExtreme.lowest ha2
    have hhb : b.lowest = f.lowest b.word := congrArg WordExtreme.lowest hb2
    have hw : a.word = b.word := hinj a.word ha1 b.word hb1 (by rw [← hha, ← hhb, hh])
    calc a = ⟨a.word, f.highest a.word, f.lowest a.word⟩ := ha2
      _ = ⟨b.word, f.highest b.word, f.lowest b.word⟩ := by rw [hw]
      _ = b := hb2.symm

theorem fontPairs_gAWLE_eq (f : Font) (ws₁ ws₂ : List String)
    (hperm : ws₁.Perm ws₂)
    (hinjH : ∀ w1 ∈ ws₁, ∀ w2 ∈ ws₁, f.highest w1 = f.highest w2 → w1 = w2)
    (hinjL : ∀ w1 ∈ ws₁, ∀ w2 ∈ ws₁, f.lowest w1 = f.lowest w2 → w1 = w2) :
    fontPairs (getAllWordListExtremes f ws₁)
      = fontPairs (getAllWordListExtremes f ws₂) := by
  unfold fontPairs
  rw [highestPass_gAWLE_eq f ws₁ ws₂ hperm hinjH,
    lowestPass_gAWLE_eq f ws₁ ws₂ hperm hinjL]

theorem gAWLE_words_sub (lines : List String) (fonts : List Font) :
    ∀ r ∈ fonts.map (fun f => getAllWordListExtremes f (dictFromKeys lines)),
      ∀ e ∈ r, e.word ∈ dictFromKeys lines := by
  intro r hr e he
  obtain ⟨f, _, rfl⟩ := List.mem_map.mp hr
  exact (mem_getAllWordListExtremes he).1

theorem measured_iff_loaded (lines : List String) (fonts : List Font)
    (hne : fonts ≠ []) (v : String) :
    v ∈ measuredWords (fonts.map (fun f => getAllWordListExtremes f (dictFromKeys lines)))
      ↔ v ∈ dictFromKeys lines := by
  constructor
  · intro hm
    obtain ⟨r, hr, e, he, hew⟩ := mem_measuredWords.mp hm
    exact hew ▸ gAWLE_words_sub lines fonts r hr e he
  · intro hv
    obtain ⟨f₀, hf₀⟩ := List.exists_mem_of_ne_nil fonts hne
    exact mem_measuredWords.mpr
      ⟨getAllWordListExtremes f₀ (dictFromKeys lines),
        List.mem_map.mpr ⟨f₀, hf₀, rfl⟩,
        ⟨v, f₀.highest v, f₀.lowest v⟩,
        List.mem_map.mpr ⟨v, hv, rfl⟩, rfl⟩

/-- With the spec-modelled provider every loaded word is measured, so a full
job's output is exactly the ranked block. -/
theorem runFullJob_eq_ordered (lines : List String) (fonts : List Font)
    (hne : fonts ≠ []) :
    runFullJob lines fonts = .ok (orderedWords (buildPriorities
      (fonts.map (fun f => getAllWordListExtremes f (dictFromKeys lines))))) := by
  have hres_ne : fonts.map (fun f => getAllWordListExtremes f (dictFromKeys lines)) ≠ [] := by
    simpa using hne
  rw [runFullJob, sortJob_spec lines _ hres_ne (gAWLE_words_sub lines fonts)]
  have hfilter : (dictFromKeys lines).filter (fun v => decide (v ∉ measuredWords
      (fonts.map (fun f => getAllWordListExtremes f (dictFromKeys lines))))) = [] := by
    rw [List.filter_eq_nil_iff]
    intro v hv
    simpa using (measured_iff_loaded lines fonts hne v).mpr hv
  rw [hfilter, List.append_nil]

/-- The ranked block of a full job is a permutation of the loaded word list. -/
theorem runFullJob_ordered_perm (lines : List String) (fonts : List Font)
    (hne : fonts ≠ []) :
    (orderedWords (buildPriorities
      (fonts.map (fun f => getAllWordListExtremes f (dictFromKeys lines))))).Perm
      (dictFromKeys lines) := by
  refine (orderedWords_perm _).trans ?_
  refine perm_of_nodup_of_mem_iff (keys_nodup_buildPriorities _)
    (dictFromKeys_nodup lines) (fun a => ?_)
  rw [mem_keys_iff_measured]
  exact measured_iff_loaded lines fonts hne a

/-- C4 amended: with the spec-modelled measurement provider, the full reorder
job is idempotent provided that, within each font, no two distinct loaded
words share a highest value and no two share a lowest value (no measurement
ties): re-running the job on its own output reproduces that output. With tied
values the stable sorts resolve ranks by word-list order and idempotence fails
(see the counterexample). -/
theorem C4_idempotent_without_ties (lines : List String) (fonts : List Font)
    (out : List String)
    (hinjH : ∀ f ∈ fonts, ∀ w1 ∈ dictFromKeys lines, ∀ w2 ∈ dictFromKeys lines,
      f.highest w1 = f.highest w2 → w1 = w2)
    (hinjL : ∀ f ∈ fonts, ∀ w1 ∈ dictFromKeys lines, ∀ w2 ∈ dictFromKeys lines,
      f.lowest w1 = f.lowest w2 → w1 = w2)
    (h1 : runFullJob lines fonts = .ok out) :
    runFullJob out fonts = .ok out := by
  have hne : fonts ≠ [] := by
    intro hf
    subst hf
    rw [runFullJob] at h1
    simp [sortJob] at h1
  have h1' := runFullJob_eq_ordered lines fonts hne
  have hout : orderedWords (buildPriorities
      (fonts.map (fun f => getAllWordListExtremes f (dictFromKeys lines)))) = out :=
    Except.ok.inj (h1'.symm.trans h1)
  have houtperm : out.Perm (dictFromKeys lines) :=
    hout ▸ runFullJob_ordered_perm lines fonts hne
  have houtnodup : out.Nodup := houtperm.nodup_iff.mpr (dictFromKeys_nodup lines)
  have hdk : dictFromKeys out = out := dictFromKeys_eq_self_of_nodup houtnodup
  have h2' := runFullJob_eq_ordered out fonts hne
  rw [hdk] at h2'
  rw [h2']
  have hall : allPairs (fonts.map (fun f => getAllWordListExtremes f out))
      = allPairs (fonts.map (fun f => getAllWordListExtremes f (dictFromKeys lines))) := by
    rw [allPairs_map, allPairs_map]
    apply flatMap_congr
    intro f hf
    exact fontPairs_gAWLE_eq f out (dictFromKeys lines) houtperm
      (fun w1 hw1 w2 hw2 => hinjH f hf w1 (houtperm.subset hw1) w2 (houtperm.subset hw2))
      (fun w1 hw1 w2 hw2 => hinjL f hf w1 (houtperm.subset hw1) w2 (houtperm.subset hw2))
  have hbp : buildPriorities (fonts.map (fun f => getAllWordListExtremes f out))
      = buildPriorities (fonts.map (fun f => getAllWordListExtremes f (dictFromKeys lines))) := by
    rw [buildPriorities_eq, buildPriorities_eq, hall]
  rw [hbp, hout]

/-- The tie-free font used to witness the amended C4. -/
def distinctFont : Font where
  highest := fun w => if w = "a" then 2 else 1
  lowest := fun w => if w = "a" then -2 else -1

/-- Witness for the amended C4 at a concrete tie-free input. -/
theorem C4_idempotent_without_ties_witness :
    runFullJob ["a", "b"] [distinctFont] = .ok ["a", "b"] :=
  C4_idempotent_without_ties ["b", "a"] [distinctFont] ["a", "b"]
    (by decide) (by decide) (by decide)

end FontHeight
